import Mathlib

/-
  Verification development for the CAN signal codec in
  src/examples/can_protocol/can_signal_parser.c.

  Modelling conventions (shallow embedding):
  * Machine integers are modelled as Nat with the C conversions made
    explicit: a store into a uint16_t local is `% 65536`, a store into a
    uint8_t local is `% 256`.  Where a claim's hypotheses confine the
    values to the in-range regime these reductions are identities.
  * The 8-byte payload `uint8_t data[8]` is modelled as a total function
    `Nat → Nat` from byte index to byte value.  The C array has no bounds
    checks, so an out-of-range byte index simply reads/writes this
    idealized unbounded store; the theorems about claim C2 exhibit the
    out-of-range indices the code computes.
  * `float` arithmetic in the physical-value converter is idealized as
    exact rational (ℚ) arithmetic; the integer (sign-interpretation)
    stage is modelled exactly over Int, including the 64-bit shifts,
    whose undefined cases (shift count ≥ 64) are made explicit by an
    Option result.
-/

/-- The `Can_Message_t` struct: id, dlc, 8-byte payload, id kind, rtr.
The payload array is modelled as a byte-indexed function (see header). -/
structure Can_Message_t where
  id : Nat
  dlc : Nat
  data : Nat → Nat
  extended_id : Bool
  rtr : Bool

/-- The `Can_Signal_t` struct.  The four `float` scaling fields are
idealized as exact rationals. -/
structure Can_Signal_t where
  start_bit : Nat
  length : Nat
  factor : ℚ
  offset : ℚ
  min_value : ℚ
  max_value : ℚ

/-- Intel-mode linear bit position: `uint16_t bit_pos = start_bit + i`.
The `% 65536` is the store into the 16-bit local. -/
def intelBitPos (start_bit i : Nat) : Nat := (start_bit + i) % 65536

/-- Motorola-mode linear bit position: `uint16_t bit_pos = start_bit - i`,
computed in int and stored into a 16-bit local, hence the wraparound
form `(start_bit + 65536 - i) % 65536` (valid for arguments below 2^16). -/
def motBitPos (start_bit i : Nat) : Nat := (start_bit + 65536 - i) % 65536

/-- `uint8_t byte_idx = bit_pos / 8`; the `% 256` is the 8-bit store. -/
def byteIdxOf (bit_pos : Nat) : Nat := (bit_pos / 8) % 256

/-- One iteration of the Intel branch of `Can_ExtractSignal`:
`bit_idx = bit_pos % 8`; `if ((msg->data[byte_idx] >> bit_idx) & 0x01)
raw_value |= (1ULL << i);`. -/
def intelExtractStep (data : Nat → Nat) (start_bit raw i : Nat) : Nat :=
  if (data (byteIdxOf (intelBitPos start_bit i)) >>> (intelBitPos start_bit i % 8)) &&& 1 == 1
  then raw ||| (1 <<< i) else raw

/-- One iteration of the Motorola branch of `Can_ExtractSignal`:
`bit_idx = 7 - (bit_pos % 8)`; `if ((msg->data[byte_idx] >> bit_idx) & 0x01)
raw_value |= (1ULL << (length - 1 - i));`. -/
def motExtractStep (data : Nat → Nat) (start_bit length raw i : Nat) : Nat :=
  if (data (byteIdxOf (motBitPos start_bit i)) >>> (7 - motBitPos start_bit i % 8)) &&& 1 == 1
  then raw ||| (1 <<< (length - 1 - i)) else raw

/-- `Can_ExtractSignal`: the two `for (i = 0; i < length; i++)` loops,
starting from `raw_value = 0`. -/
def Can_ExtractSignal (msg : Can_Message_t) (start_bit length : Nat) (motorola : Bool) : Nat :=
  if motorola then (List.range length).foldl (motExtractStep msg.data start_bit length) 0
  else (List.range length).foldl (intelExtractStep msg.data start_bit) 0

/-- The shared write in both branches of `Can_InsertSignal`:
`msg->data[byte_idx] |= (1 << bit_idx)` when the value bit is set, and
`msg->data[byte_idx] &= ~(1 << bit_idx)` otherwise.  `~` acts on a
32-bit `int`, hence the `4294967295 ^^^` mask; the result stored back
into the `uint8_t` array cell is reduced `% 256`. -/
def writeBit (m : Can_Message_t) (byte_idx bit_idx : Nat) (c : Bool) : Can_Message_t :=
  if c then
    { m with data := Function.update m.data byte_idx ((m.data byte_idx ||| (1 <<< bit_idx)) % 256) }
  else
    { m with data := Function.update m.data byte_idx ((m.data byte_idx &&& (4294967295 ^^^ (1 <<< bit_idx))) % 256) }

/-- One iteration of the Intel branch of `Can_InsertSignal`:
tests `(value >> i) & 0x01` and writes payload bit `bit_pos % 8` of byte
`bit_pos / 8` where `bit_pos = start_bit + i`. -/
def intelInsertStep (start_bit value : Nat) (m : Can_Message_t) (i : Nat) : Can_Message_t :=
  writeBit m (byteIdxOf (intelBitPos start_bit i)) (intelBitPos start_bit i % 8)
    ((value >>> i) &&& 1 == 1)

/-- One iteration of the Motorola branch of `Can_InsertSignal`:
tests `(value >> (length - 1 - i)) & 0x01` and writes payload bit
`7 - (bit_pos % 8)` of byte `bit_pos / 8` where `bit_pos = start_bit - i`. -/
def motInsertStep (start_bit length value : Nat) (m : Can_Message_t) (i : Nat) : Can_Message_t :=
  writeBit m (byteIdxOf (motBitPos start_bit i)) (7 - motBitPos start_bit i % 8)
    ((value >>> (length - 1 - i)) &&& 1 == 1)

/-- `Can_InsertSignal`: the two `for (i = 0; i < length; i++)` loops,
mutating the message in place (modelled by returning the new message). -/
def Can_InsertSignal (msg : Can_Message_t) (start_bit length value : Nat) (motorola : Bool) : Can_Message_t :=
  if motorola then (List.range length).foldl (motInsertStep start_bit length value) msg
  else (List.range length).foldl (intelInsertStep start_bit value) msg

/-- A C shift of a `uint64_t` by `k`: defined (value truncated to 64
bits) for `k < 64`, undefined behavior (C11 6.5.7p3) otherwise, made
explicit as `none`. -/
def shl64 (a k : Nat) : Option Nat := if k < 64 then some ((a <<< k) % 2 ^ 64) else none

/-- Reinterpret a 64-bit pattern (a Nat) as a two's-complement `int64_t`
value, as the implementation-defined C conversion does on all common
targets. -/
def i64OfNat (n : Nat) : Int :=
  if n % 2 ^ 64 < 2 ^ 63 then ((n % 2 ^ 64 : Nat) : Int) else ((n % 2 ^ 64 : Nat) : Int) - 2 ^ 64

/-- The 64-bit pattern of an `int64_t` value. -/
def natOfI64 (z : Int) : Nat := (z % (2 ^ 64 : Int)).toNat

/-- The integer (pre-scaling) stage of `Can_SignalToPhysical`: the
numeric value the code feeds into the scaling expression.
For `is_signed`, the code computes `int64_t signed_value =
(int64_t)raw_value;` and, when `raw_value & (1ULL << (length - 1))` is
nonzero, `signed_value |= (~0ULL << length)`.  Both shifts are C
`uint64_t` shifts, undefined for counts ≥ 64 (`length - 1` is computed
in the `uint8_t` field, hence `(length + 255) % 256`); the undefined
cases surface as `none`.  For the unsigned branch the numeric value is
`raw_value` itself. -/
def numericValue (raw_value length : Nat) (is_signed : Bool) : Option Int :=
  if is_signed then
    (shl64 1 ((length + 255) % 256)).bind fun m =>
      if raw_value &&& m ≠ 0 then
        (shl64 (2 ^ 64 - 1) length).map fun mask =>
          i64OfNat (natOfI64 (i64OfNat raw_value) ||| mask)
      else some (i64OfNat raw_value)
  else some ((raw_value : Nat) : Int)

/-- `Can_SignalToPhysical`: scaling `physical_value = numeric * factor +
offset` followed by the range check `if (physical_value <
signal->min_value) ... else if (physical_value > signal->max_value) ...`.
Float arithmetic idealized as exact ℚ; the result is the bare value —
the C function returns only a `float`, with no clamped flag. -/
def Can_SignalToPhysical (raw_value : Nat) (signal : Can_Signal_t) (is_signed : Bool) : Option ℚ :=
  (numericValue raw_value signal.length is_signed).map fun n =>
    let physical_value : ℚ := (n : ℚ) * signal.factor + signal.offset
    if physical_value < signal.min_value then signal.min_value
    else if signal.max_value < physical_value then signal.max_value
    else physical_value

/-- The `speed_signal` descriptor built inside `Can_ParseVehicleSpeed`
(factor 0.01, offset 0, range 0..300); `0.01f` idealized as 1/100. -/
def speedSignal : Can_Signal_t :=
  { start_bit := 0, length := 16, factor := 1 / 100, offset := 0
    min_value := 0, max_value := 300 }

/-- `Can_ParseVehicleSpeed`: extract 16 bits at bit 0 (Intel) and
convert with `speedSignal`, unsigned. -/
def Can_ParseVehicleSpeed (msg : Can_Message_t) : Option ℚ :=
  Can_SignalToPhysical (Can_ExtractSignal msg 0 16 false) speedSignal false

/-- `Can_CreateEngineRpmMessage`: `memset` zeroes the whole struct, the
header fields are set, `raw_rpm = (uint64_t)(rpm / 0.25f)` (exact float
arithmetic for `rpm ≤ 65535`, hence `rpm * 4`), out-of-range high rpm is
clamped to the raw sentinel 32000, and the result is inserted at
start_bit 16, length 16, Intel order. -/
def Can_CreateEngineRpmMessage (msg : Can_Message_t) (rpm : Nat) : Can_Message_t :=
  let msg0 : Can_Message_t :=
    { id := 0x234, dlc := 8, data := fun _ => 0, extended_id := false, rtr := false }
  let raw_rpm : Nat := rpm * 4
  let raw_rpm : Nat := if 8000 < rpm then 32000 else raw_rpm
  Can_InsertSignal msg0 16 16 raw_rpm false

/-- `Can_ValidateMessage`: DLC at most 8, id at most 29 bits for
extended frames and at most 11 bits for standard frames. -/
def Can_ValidateMessage (msg : Can_Message_t) : Bool :=
  if msg.dlc > 8 then false
  else if msg.extended_id then
    if msg.id > 0x1FFFFFFF then false else true
  else
    if msg.id > 0x7FF then false else true

/-- A geometry places its field fully within the 8-byte payload: in
Intel mode the touched linear bit positions are `start_bit + i`
(`i < length`), in Motorola mode they run backward from `start_bit`, so
the field fits iff `length ≤ start_bit + 1` and `start_bit < 64`.
(Spec §3/§4.1 well-formedness, stated for the code's addressing rule.) -/
def geometryWellFormed (start_bit length : Nat) (motorola : Bool) : Prop :=
  if motorola then length ≤ start_bit + 1 ∧ start_bit < 64
  else start_bit + length ≤ 64

/-- Payload bit at linear index `pos` (spec §3: byte `pos / 8`, bit
`pos % 8`, bit 0 the least significant bit of its byte). -/
def payloadBit (data : Nat → Nat) (pos : Nat) : Bool := (data (pos / 8)).testBit (pos % 8)

/-- The linear indices of the payload bits the insert loop addresses:
Intel writes bit `bit_pos % 8` of byte `bit_pos / 8` with `bit_pos =
start_bit + i`; Motorola writes bit `7 - (bit_pos % 8)` of byte
`bit_pos / 8` with `bit_pos = start_bit - i`. -/
def touchedLinearBits (start_bit length : Nat) (motorola : Bool) : List Nat :=
  if motorola then
    (List.range length).map fun i => 8 * ((start_bit - i) / 8) + (7 - (start_bit - i) % 8)
  else
    (List.range length).map fun i => start_bit + i

/-- An all-zero message: the zeroed payload of the round-trip law. -/
def zeroMsg : Can_Message_t :=
  { id := 0, dlc := 0, data := fun _ => 0, extended_id := false, rtr := false }

/-- Message whose byte 0 is 0b10000001 and whose other bytes are 0. -/
def msg81 : Can_Message_t :=
  { id := 0, dlc := 8, data := fun b => if b = 0 then 0x81 else 0
    extended_id := false, rtr := false }

/-- An 8-byte all-zero payload (claim C2). -/
def oobMsgA : Can_Message_t :=
  { id := 0, dlc := 8, data := fun _ => 0, extended_id := false, rtr := false }

/-- A message agreeing with `oobMsgA` on all eight payload bytes
(indices 0..7) but differing at the out-of-bounds index 8 of the
idealized store (claim C2). -/
def oobMsgB : Can_Message_t :=
  { id := 0, dlc := 8, data := fun b => if b = 8 then 1 else 0
    extended_id := false, rtr := false }

/-- Descriptor with factor 1, offset 0, range 0..300 (claim C6). -/
def unitSignal : Can_Signal_t :=
  { start_bit := 0, length := 16, factor := 1, offset := 0
    min_value := 0, max_value := 300 }

/-- An all-ones-payload message (witness payload for claim C3). -/
def onesMsg : Can_Message_t :=
  { id := 3, dlc := 8, data := fun _ => 255, extended_id := true, rtr := false }

/- Helper lemmas: bit-level characterizations of the loop bodies. -/

theorem beq_and_one_eq_testBit (a i : Nat) : ((a >>> i) &&& 1 == 1) = a.testBit i := by
  rw [Nat.and_one_is_mod, Nat.shiftRight_eq_div_pow, Nat.testBit_to_div_mod]
  rcases Nat.mod_two_eq_zero_or_one (a / 2 ^ i) with h | h <;> simp [h]

theorem testBit_mod256 (x k : Nat) (hk : k < 8) : (x % 256).testBit k = x.testBit k := by
  have h : (256 : Nat) = 2 ^ 8 := rfl
  rw [h, Nat.testBit_mod_two_pow]
  simp [hk]

theorem testBit_or_pow_self (x j : Nat) : (x ||| 1 <<< j).testBit j = true := by
  rw [Nat.testBit_or, Nat.shiftLeft_eq, one_mul, Nat.testBit_two_pow]
  simp

theorem testBit_or_pow_ne (x j k : Nat) (h : j ≠ k) : (x ||| 1 <<< j).testBit k = x.testBit k := by
  rw [Nat.testBit_or, Nat.shiftLeft_eq, one_mul, Nat.testBit_two_pow]
  simp [h]

theorem testBit_mask32 (j k : Nat) :
    (4294967295 ^^^ 1 <<< j).testBit k = (decide (k < 32) ^^ decide (j = k)) := by
  rw [Nat.testBit_xor, Nat.shiftLeft_eq, one_mul, Nat.testBit_two_pow]
  congr 1
  rw [show (4294967295 : Nat) = 2 ^ 32 - 1 from rfl, Nat.testBit_two_pow_sub_one]

theorem testBit_and_mask_self (x j : Nat) (hj : j < 32) :
    (x &&& (4294967295 ^^^ 1 <<< j)).testBit j = false := by
  rw [Nat.testBit_and, testBit_mask32]
  simp [hj]

theorem testBit_and_mask_ne (x j k : Nat) (h : j ≠ k) (hk : k < 32) :
    (x &&& (4294967295 ^^^ 1 <<< j)).testBit k = x.testBit k := by
  rw [Nat.testBit_and, testBit_mask32]
  simp [hk, h]

theorem foldl_orBit_testBit (c : Nat → Bool) (S : Nat → Nat) (l : List Nat) (init p : Nat) :
    (l.foldl (fun raw i => if c i then raw ||| 1 <<< S i else raw) init).testBit p
      = (init.testBit p || l.any fun i => c i && S i == p) := by
  induction l generalizing init with
  | nil => simp
  | cons a t ih =>
    rw [List.foldl_cons, ih, List.any_cons]
    by_cases hca : c a = true
    · by_cases hS : S a = p
      · subst hS
        have hb : (S a == S a) = true := by simp
        simp [hca, hb, testBit_or_pow_self]
      · have hb : (S a == p) = false := by simpa using hS
        simp [hca, hb, testBit_or_pow_ne _ _ _ hS]
    · rw [Bool.not_eq_true] at hca
      simp [hca]

theorem any_range_eq (len p : Nat) (f : Nat → Bool) :
    ((List.range len).any fun i => f i && (i == p)) = (decide (p < len) && f p) := by
  rw [Bool.eq_iff_iff]
  simp only [List.any_eq_true, List.mem_range, Bool.and_eq_true, beq_iff_eq,
    decide_eq_true_eq]
  constructor
  · rintro ⟨i, hi, hf, rfl⟩
    exact ⟨hi, hf⟩
  · rintro ⟨hp, hf⟩
    exact ⟨p, hp, hf, rfl⟩

theorem any_range_eq_rev (len p : Nat) (f : Nat → Bool) :
    ((List.range len).any fun i => f i && ((len - 1 - i) == p)) = (decide (p < len) && f (len - 1 - p)) := by
  rw [Bool.eq_iff_iff]
  simp only [List.any_eq_true, List.mem_range, Bool.and_eq_true, beq_iff_eq,
    decide_eq_true_eq]
  constructor
  · rintro ⟨i, hi, hf, hip⟩
    have hp : p < len := by omega
    have hie : len - 1 - p = i := by omega
    exact ⟨hp, by rw [hie]; exact hf⟩
  · rintro ⟨hp, hf⟩
    exact ⟨len - 1 - p, by omega, hf, by omega⟩

theorem foldl_writeBit_untouched (B K : Nat → Nat) (c : Nat → Bool) :
    ∀ (l : List Nat) (m : Can_Message_t) (b k : Nat), k < 8 →
    (∀ i ∈ l, ¬(B i = b ∧ K i = k)) →
    ((l.foldl (fun m i => writeBit m (B i) (K i) (c i)) m).data b).testBit k
      = (m.data b).testBit k := by
  intro l
  induction l with
  | nil => intro m b k _ _; rfl
  | cons a t ih =>
    intro m b k hk h
    rw [List.foldl_cons, ih _ b k hk (fun i hi => h i (List.mem_cons_of_mem a hi))]
    have ha := h a (List.mem_cons_self a t)
    unfold writeBit
    by_cases hB : B a = b
    · have hK : K a ≠ k := fun hKk => ha ⟨hB, hKk⟩
      subst hB
      split
      · simp only [Function.update_same]
        rw [testBit_mod256 _ _ hk, testBit_or_pow_ne _ _ _ hK]
      · simp only [Function.update_same]
        rw [testBit_mod256 _ _ hk, testBit_and_mask_ne _ _ _ hK (by omega)]
    · split <;> simp only [Function.update_noteq (Ne.symm hB)]

theorem foldl_writeBit_touched (B K : Nat → Nat) (c : Nat → Bool) :
    ∀ (l : List Nat) (m : Can_Message_t) (a : Nat), a ∈ l → l.Nodup → K a < 8 →
    (∀ i ∈ l, B i = B a → K i = K a → i = a) →
    ((l.foldl (fun m i => writeBit m (B i) (K i) (c i)) m).data (B a)).testBit (K a) = c a := by
  intro l
  induction l with
  | nil => intro m a ha; cases ha
  | cons x t ih =>
    intro m a ha hnd hk huniq
    rw [List.foldl_cons]
    by_cases hxa : B x = B a ∧ K x = K a
    · have hx_eq : x = a := huniq x (List.mem_cons_self x t) hxa.1 hxa.2
      have hnone : ∀ i ∈ t, ¬(B i = B a ∧ K i = K a) := by
        intro i hi hcon
        have hia : i = a := huniq i (List.mem_cons_of_mem x hi) hcon.1 hcon.2
        rw [hia, ← hx_eq] at hi
        exact (List.nodup_cons.mp hnd).1 hi
      rw [foldl_writeBit_untouched B K c t _ (B a) (K a) hk hnone, hx_eq]
      unfold writeBit
      split
      · rename_i hc
        simp only [Function.update_same]
        rw [testBit_mod256 _ _ hk, testBit_or_pow_self]
        exact hc.symm
      · rename_i hc
        simp only [Function.update_same]
        rw [testBit_mod256 _ _ hk, testBit_and_mask_self _ _ (by omega)]
        rw [Bool.not_eq_true] at hc
        exact hc.symm
    · have hat : a ∈ t := by
        rcases List.mem_cons.mp ha with h | h
        · exact absurd ⟨by rw [h], by rw [h]⟩ hxa
        · exact h
      exact ih _ a hat (List.nodup_cons.mp hnd).2 hk
        (fun i hi h1 h2 => huniq i (List.mem_cons_of_mem x hi) h1 h2)

theorem foldl_writeBit_fields (B K : Nat → Nat) (c : Nat → Bool) :
    ∀ (l : List Nat) (m : Can_Message_t),
      (l.foldl (fun m i => writeBit m (B i) (K i) (c i)) m).id = m.id ∧
      (l.foldl (fun m i => writeBit m (B i) (K i) (c i)) m).dlc = m.dlc ∧
      (l.foldl (fun m i => writeBit m (B i) (K i) (c i)) m).extended_id = m.extended_id ∧
      (l.foldl (fun m i => writeBit m (B i) (K i) (c i)) m).rtr = m.rtr := by
  intro l
  induction l with
  | nil => intro m; exact ⟨rfl, rfl, rfl, rfl⟩
  | cons x t ih =>
    intro m
    rw [List.foldl_cons]
    have hw : (writeBit m (B x) (K x) (c x)).id = m.id ∧
        (writeBit m (B x) (K x) (c x)).dlc = m.dlc ∧
        (writeBit m (B x) (K x) (c x)).extended_id = m.extended_id ∧
        (writeBit m (B x) (K x) (c x)).rtr = m.rtr := by
      unfold writeBit; split <;> exact ⟨rfl, rfl, rfl, rfl⟩
    obtain ⟨e1, e2, e3, e4⟩ := ih (writeBit m (B x) (K x) (c x))
    exact ⟨e1.trans hw.1, e2.trans hw.2.1, e3.trans hw.2.2.1, e4.trans hw.2.2.2⟩

theorem intelBitPos_eq (sb i : Nat) (h : sb + i < 65536) : intelBitPos sb i = sb + i := by
  unfold intelBitPos; omega

theorem motBitPos_eq (sb i : Nat) (h1 : i ≤ sb) (h2 : sb < 65536) : motBitPos sb i = sb - i := by
  unfold motBitPos; omega

theorem byteIdxOf_eq (x : Nat) (h : x < 2048) : byteIdxOf x = x / 8 := by
  unfold byteIdxOf; omega

theorem intelInsert_foldl_eq (sb v : Nat) (l : List Nat) (m : Can_Message_t) :
    l.foldl (intelInsertStep sb v) m
      = l.foldl (fun m i => writeBit m (byteIdxOf (intelBitPos sb i)) (intelBitPos sb i % 8)
          ((v >>> i) &&& 1 == 1)) m := rfl

theorem motInsert_foldl_eq (sb len v : Nat) (l : List Nat) (m : Can_Message_t) :
    l.foldl (motInsertStep sb len v) m
      = l.foldl (fun m i => writeBit m (byteIdxOf (motBitPos sb i)) (7 - motBitPos sb i % 8)
          ((v >>> (len - 1 - i)) &&& 1 == 1)) m := rfl

theorem intelExtract_foldl_eq (d : Nat → Nat) (sb : Nat) (l : List Nat) (init : Nat) :
    l.foldl (intelExtractStep d sb) init
      = l.foldl (fun raw i =>
          if (d (byteIdxOf (intelBitPos sb i)) >>> (intelBitPos sb i % 8)) &&& 1 == 1
          then raw ||| 1 <<< i else raw) init := rfl

theorem motExtract_foldl_eq (d : Nat → Nat) (sb len : Nat) (l : List Nat) (init : Nat) :
    l.foldl (motExtractStep d sb len) init
      = l.foldl (fun raw i =>
          if (d (byteIdxOf (motBitPos sb i)) >>> (7 - motBitPos sb i % 8)) &&& 1 == 1
          then raw ||| 1 <<< (len - 1 - i) else raw) init := rfl

/-- Round-trip of the Intel branch: extracting after inserting into the
zero payload recovers the value, for any in-payload Intel geometry. -/
theorem intel_roundtrip (sb len v : Nat) (hgeom : sb + len ≤ 64) (hv : v < 2 ^ len) :
    Can_ExtractSignal (Can_InsertSignal zeroMsg sb len v false) sb len false = v := by
  apply Nat.eq_of_testBit_eq
  intro p
  have hchar : (Can_ExtractSignal (Can_InsertSignal zeroMsg sb len v false) sb len false).testBit p
      = ((List.range len).any fun i =>
          (((Can_InsertSignal zeroMsg sb len v false).data (byteIdxOf (intelBitPos sb i))
              >>> (intelBitPos sb i % 8)) &&& 1 == 1) && (i == p)) := by
    have h := foldl_orBit_testBit
      (fun i => ((Can_InsertSignal zeroMsg sb len v false).data (byteIdxOf (intelBitPos sb i))
          >>> (intelBitPos sb i % 8)) &&& 1 == 1)
      (fun i => i) (List.range len) 0 p
    rw [Nat.zero_testBit, Bool.false_or] at h
    exact h
  rw [hchar, any_range_eq]
  by_cases hp : p < len
  · have huniq : ∀ i ∈ List.range len,
        byteIdxOf (intelBitPos sb i) = byteIdxOf (intelBitPos sb p) →
        intelBitPos sb i % 8 = intelBitPos sb p % 8 → i = p := by
      intro i hi hB hK
      have hi' := List.mem_range.mp hi
      rw [intelBitPos_eq sb i (by omega), intelBitPos_eq sb p (by omega)] at hB hK
      rw [byteIdxOf_eq (sb + i) (by omega), byteIdxOf_eq (sb + p) (by omega)] at hB
      omega
    have ht := foldl_writeBit_touched
      (fun i => byteIdxOf (intelBitPos sb i)) (fun i => intelBitPos sb i % 8)
      (fun i => (v >>> i) &&& 1 == 1)
      (List.range len) zeroMsg p (List.mem_range.mpr hp) (List.nodup_range len)
      (by show intelBitPos sb p % 8 < 8; omega) huniq
    have hd : (((Can_InsertSignal zeroMsg sb len v false).data (byteIdxOf (intelBitPos sb p))
        >>> (intelBitPos sb p % 8)) &&& 1 == 1) = ((v >>> p) &&& 1 == 1) := by
      rw [beq_and_one_eq_testBit]
      exact ht
    rw [hd, beq_and_one_eq_testBit]
    simp [hp]
  · have hd1 : decide (p < len) = false := by simp [hp]
    rw [hd1]
    have hd2 : v.testBit p = false :=
      Nat.testBit_lt_two_pow (lt_of_lt_of_le hv (Nat.pow_le_pow_right (by norm_num) (by omega)))
    rw [hd2]
    simp

/-- Round-trip of the Motorola branch: extracting after inserting into
the zero payload recovers the value, for any in-payload Motorola
geometry. -/
theorem mot_roundtrip (sb len v : Nat) (h1 : len ≤ sb + 1) (h2 : sb < 64) (hv : v < 2 ^ len) :
    Can_ExtractSignal (Can_InsertSignal zeroMsg sb len v true) sb len true = v := by
  apply Nat.eq_of_testBit_eq
  intro p
  have hchar : (Can_ExtractSignal (Can_InsertSignal zeroMsg sb len v true) sb len true).testBit p
      = ((List.range len).any fun i =>
          (((Can_InsertSignal zeroMsg sb len v true).data (byteIdxOf (motBitPos sb i))
              >>> (7 - motBitPos sb i % 8)) &&& 1 == 1) && ((len - 1 - i) == p)) := by
    have h := foldl_orBit_testBit
      (fun i => ((Can_InsertSignal zeroMsg sb len v true).data (byteIdxOf (motBitPos sb i))
          >>> (7 - motBitPos sb i % 8)) &&& 1 == 1)
      (fun i => len - 1 - i) (List.range len) 0 p
    rw [Nat.zero_testBit, Bool.false_or] at h
    exact h
  rw [hchar, any_range_eq_rev]
  by_cases hp : p < len
  · have huniq : ∀ i ∈ List.range len,
        byteIdxOf (motBitPos sb i) = byteIdxOf (motBitPos sb (len - 1 - p)) →
        (7 - motBitPos sb i % 8) = (7 - motBitPos sb (len - 1 - p) % 8) → i = len - 1 - p := by
      intro i hi hB hK
      have hi' := List.mem_range.mp hi
      rw [motBitPos_eq sb i (by omega) (by omega),
        motBitPos_eq sb (len - 1 - p) (by omega) (by omega)] at hB hK
      rw [byteIdxOf_eq (sb - i) (by omega), byteIdxOf_eq (sb - (len - 1 - p)) (by omega)] at hB
      omega
    have ht := foldl_writeBit_touched
      (fun i => byteIdxOf (motBitPos sb i)) (fun i => 7 - motBitPos sb i % 8)
      (fun i => (v >>> (len - 1 - i)) &&& 1 == 1)
      (List.range len) zeroMsg (len - 1 - p) (List.mem_range.mpr (by omega)) (List.nodup_range len)
      (by show 7 - motBitPos sb (len - 1 - p) % 8 < 8; omega) huniq
    have hd : (((Can_InsertSignal zeroMsg sb len v true).data (byteIdxOf (motBitPos sb (len - 1 - p)))
        >>> (7 - motBitPos sb (len - 1 - p) % 8)) &&& 1 == 1)
        = ((v >>> (len - 1 - (len - 1 - p))) &&& 1 == 1) := by
      rw [beq_and_one_eq_testBit]
      exact ht
    rw [hd]
    have he : len - 1 - (len - 1 - p) = p := by omega
    rw [he, beq_and_one_eq_testBit]
    simp [hp]
  · have hd1 : decide (p < len) = false := by simp [hp]
    rw [hd1]
    have hd2 : v.testBit p = false :=
      Nat.testBit_lt_two_pow (lt_of_lt_of_le hv (Nat.pow_le_pow_right (by norm_num) (by omega)))
    rw [hd2]
    simp

/-- C1: Round-trip identity of the bit codec: for every length in
1..=64, every order, every start_bit placing the field fully within the
8-byte payload, and every value < 2^length, extracting from a zeroed
payload after inserting that value with the same geometry returns the
original value.  (The length bound is implied by `geometryWellFormed`.) -/
theorem roundtrip_extract_insert (start_bit length value : Nat) (motorola : Bool)
    (hlen : 1 ≤ length) (hgeom : geometryWellFormed start_bit length motorola)
    (hv : value < 2 ^ length) :
    Can_ExtractSignal (Can_InsertSignal zeroMsg start_bit length value motorola)
      start_bit length motorola = value := by
  cases motorola with
  | false =>
    exact intel_roundtrip start_bit length value (by simpa [geometryWellFormed] using hgeom) hv
  | true =>
    obtain ⟨hg1, hg2⟩ : length ≤ start_bit + 1 ∧ start_bit < 64 := by
      simpa [geometryWellFormed] using hgeom
    exact mot_roundtrip start_bit length value hg1 hg2 hv

/-- C1 witness: the round trip at two concrete geometries, one
Motorola (start 12, length 8, value 0xA5) and one Intel (start 3,
length 5, value 19). -/
theorem roundtrip_extract_insert_witness :
    (1 ≤ 8 ∧ geometryWellFormed 12 8 true ∧ 165 < 2 ^ 8
      ∧ Can_ExtractSignal (Can_InsertSignal zeroMsg 12 8 165 true) 12 8 true = 165)
    ∧ (1 ≤ 5 ∧ geometryWellFormed 3 5 false ∧ 19 < 2 ^ 5
      ∧ Can_ExtractSignal (Can_InsertSignal zeroMsg 3 5 19 false) 3 5 false = 19) :=
  ⟨⟨by decide, by simp [geometryWellFormed], by decide,
      roundtrip_extract_insert 12 8 165 true (by decide) (by simp [geometryWellFormed]) (by decide)⟩,
   ⟨by decide, by simp [geometryWellFormed], by decide,
      roundtrip_extract_insert 3 5 19 false (by decide) (by simp [geometryWellFormed]) (by decide)⟩⟩

/-- C2: the code performs no geometry bounds check and reports no
fault.  At `start_bit = 60, length = 16` (Intel) the loop computes byte
index 9 — beyond the 8-byte array — and the extraction result depends
on what lies at the out-of-bounds index: two stores agreeing on all
eight payload bytes 0..7 but differing at index 8 give different
results, instead of a reported GeometryOutOfRange fault. -/
theorem extract_out_of_range_reads :
    byteIdxOf (intelBitPos 60 15) = 9
    ∧ oobMsgA.data 0 = oobMsgB.data 0 ∧ oobMsgA.data 1 = oobMsgB.data 1
    ∧ oobMsgA.data 2 = oobMsgB.data 2 ∧ oobMsgA.data 3 = oobMsgB.data 3
    ∧ oobMsgA.data 4 = oobMsgB.data 4 ∧ oobMsgA.data 5 = oobMsgB.data 5
    ∧ oobMsgA.data 6 = oobMsgB.data 6 ∧ oobMsgA.data 7 = oobMsgB.data 7
    ∧ Can_ExtractSignal oobMsgA 60 16 false ≠ Can_ExtractSignal oobMsgB 60 16 false := by
  decide

/-- C3: insertion does not disturb payload bits outside the addressed
field: for any payload, well-formed geometry and value, every linear
bit position not among the field's addressed positions is unchanged. -/
theorem insert_noninterference (msg : Can_Message_t) (start_bit length value : Nat)
    (motorola : Bool) (pos : Nat)
    (hgeom : geometryWellFormed start_bit length motorola)
    (hpos : pos ∉ touchedLinearBits start_bit length motorola) :
    payloadBit (Can_InsertSignal msg start_bit length value motorola).data pos
      = payloadBit msg.data pos := by
  cases motorola with
  | false =>
    have hg : start_bit + length ≤ 64 := by simpa [geometryWellFormed] using hgeom
    have hh : ∀ i ∈ List.range length,
        ¬(byteIdxOf (intelBitPos start_bit i) = pos / 8 ∧ intelBitPos start_bit i % 8 = pos % 8) := by
      rintro i hi ⟨hB, hK⟩
      have hi' := List.mem_range.mp hi
      rw [intelBitPos_eq start_bit i (by omega)] at hB hK
      rw [byteIdxOf_eq (start_bit + i) (by omega)] at hB
      apply hpos
      have hpose : pos = start_bit + i := by omega
      have he : touchedLinearBits start_bit length false
          = (List.range length).map fun i => start_bit + i := by
        simp [touchedLinearBits]
      rw [hpose, he]
      exact List.mem_map.mpr ⟨i, hi, rfl⟩
    exact foldl_writeBit_untouched
      (fun i => byteIdxOf (intelBitPos start_bit i)) (fun i => intelBitPos start_bit i % 8)
      (fun i => (value >>> i) &&& 1 == 1)
      (List.range length) msg (pos / 8) (pos % 8) (by omega) hh
  | true =>
    obtain ⟨hg1, hg2⟩ : length ≤ start_bit + 1 ∧ start_bit < 64 := by
      simpa [geometryWellFormed] using hgeom
    have hh : ∀ i ∈ List.range length,
        ¬(byteIdxOf (motBitPos start_bit i) = pos / 8 ∧ (7 - motBitPos start_bit i % 8) = pos % 8) := by
      rintro i hi ⟨hB, hK⟩
      have hi' := List.mem_range.mp hi
      rw [motBitPos_eq start_bit i (by omega) (by omega)] at hB hK
      rw [byteIdxOf_eq (start_bit - i) (by omega)] at hB
      apply hpos
      have hpose : pos = 8 * ((start_bit - i) / 8) + (7 - (start_bit - i) % 8) := by omega
      have he : touchedLinearBits start_bit length true
          = (List.range length).map fun i => 8 * ((start_bit - i) / 8) + (7 - (start_bit - i) % 8) := by
        simp [touchedLinearBits]
      rw [hpose, he]
      exact List.mem_map.mpr ⟨i, hi, rfl⟩
    exact foldl_writeBit_untouched
      (fun i => byteIdxOf (motBitPos start_bit i)) (fun i => 7 - motBitPos start_bit i % 8)
      (fun i => (value >>> (length - 1 - i)) &&& 1 == 1)
      (List.range length) msg (pos / 8) (pos % 8) (by omega) hh

/-- C3 witness: inserting 0 over bits 8..11 of an all-ones payload
leaves linear bit 3 (outside the field) unchanged. -/
theorem insert_noninterference_witness :
    geometryWellFormed 8 4 false ∧ (3 : Nat) ∉ touchedLinearBits 8 4 false ∧
    payloadBit (Can_InsertSignal onesMsg 8 4 0 false).data 3 = payloadBit onesMsg.data 3 :=
  ⟨by simp [geometryWellFormed], by decide,
    insert_noninterference onesMsg 8 4 0 false 3 (by simp [geometryWellFormed]) (by decide)⟩

/-- C4: the sign-interpretation stage at the failing input: for
`length = 64` with the sign bit set the code executes `~0ULL << 64`,
which is undefined in C (modelled `none`), so the claimed numeric value
`raw - 2^64` is not produced; at the claim's concrete instance
`length = 8`, raw `0xFF` gives −1 signed and 255 unsigned, as claimed. -/
theorem sign_extension_eval :
    numericValue (2 ^ 63) 64 true = none
    ∧ numericValue 255 8 true = some (-1)
    ∧ numericValue 255 8 false = some 255 := by
  decide

/-- C5: the physical value is numeric * factor + offset clamped to the
descriptor bounds after scaling (stated through max/min, the spec's
formulation of the clamp), and the concrete instance: factor 0.01,
offset 0, range 0..300, raw 65535 unsigned scale-then-clamps to 300. -/
theorem to_physical_scale_then_clamp (raw : Nat) (signal : Can_Signal_t) (is_signed : Bool)
    (n : Int) (hminmax : signal.min_value ≤ signal.max_value)
    (hn : numericValue raw signal.length is_signed = some n) :
    Can_SignalToPhysical raw signal is_signed
      = some (max signal.min_value (min signal.max_value ((n : ℚ) * signal.factor + signal.offset)))
    ∧ Can_SignalToPhysical 65535 speedSignal false = some 300 := by
  constructor
  · unfold Can_SignalToPhysical
    rw [hn]
    refine congrArg some ?_
    show (if ((n : ℚ) * signal.factor + signal.offset) < signal.min_value then signal.min_value
      else if signal.max_value < ((n : ℚ) * signal.factor + signal.offset) then signal.max_value
      else ((n : ℚ) * signal.factor + signal.offset))
      = max signal.min_value (min signal.max_value ((n : ℚ) * signal.factor + signal.offset))
    rcases lt_or_le ((n : ℚ) * signal.factor + signal.offset) signal.min_value with h | h
    · rw [if_pos h, min_eq_right (le_trans h.le hminmax), max_eq_left h.le]
    · rw [if_neg (not_lt.mpr h)]
      rcases lt_or_le signal.max_value ((n : ℚ) * signal.factor + signal.offset) with h2 | h2
      · rw [if_pos h2, min_eq_left h2.le, max_eq_right hminmax]
      · rw [if_neg (not_lt.mpr h2), min_eq_right h2, max_eq_right h]
  · simp only [Can_SignalToPhysical, speedSignal, numericValue, Option.map]
    norm_num

/-- C5 witness: the clamp law applied at raw 65535 with the vehicle
speed descriptor. -/
theorem to_physical_scale_then_clamp_witness :
    speedSignal.min_value ≤ speedSignal.max_value
    ∧ numericValue 65535 speedSignal.length false = some 65535
    ∧ Can_SignalToPhysical 65535 speedSignal false
        = some (max speedSignal.min_value (min speedSignal.max_value
            (((65535 : Int) : ℚ) * speedSignal.factor + speedSignal.offset))) :=
  ⟨by decide, by decide,
    (to_physical_scale_then_clamp 65535 speedSignal false 65535 (by decide) (by decide)).1⟩

/-- C6: clamping is not observable in the result: the conversion
returns only the (possibly clamped) value, so the clamped input 301 and
the exact input 300 produce identical outputs under factor 1, range
0..300 — the caller cannot distinguish them, and no clamped flag
exists. -/
theorem clamp_not_observable :
    Can_SignalToPhysical 300 unitSignal false = some 300
    ∧ Can_SignalToPhysical 301 unitSignal false = some 300
    ∧ Can_SignalToPhysical 300 unitSignal false = Can_SignalToPhysical 301 unitSignal false := by
  refine ⟨?_, ?_, ?_⟩ <;>
    simp only [Can_SignalToPhysical, unitSignal, numericValue, Option.map] <;> norm_num

/-- C7: `Can_ValidateMessage` accepts a message iff its dlc is at most
8 and its identifier fits the declared width (0x7FF standard,
0x1FFFFFFF extended); the claim's concrete pass/fail cases are
instances. -/
theorem validate_message_iff (msg : Can_Message_t) :
    Can_ValidateMessage msg = true
      ↔ (msg.dlc ≤ 8 ∧ (if msg.extended_id then msg.id ≤ 0x1FFFFFFF else msg.id ≤ 0x7FF)) := by
  unfold Can_ValidateMessage
  split_ifs <;> simp_all

/-- C8 counterexample: on the payload with byte 0 = 0b10000001 (other
bytes 0), Intel extraction with start_bit = 7, length = 8 does not
return 0x81 — it reads payload bits 7..14 and returns 0x01. -/
theorem intel_start7_not_direct :
    Can_ExtractSignal msg81 7 8 false ≠ 0x81 := by decide

/-- C8 (amended): on that payload, Intel reads byte 0 directly only
with start_bit = 0 (returning 0x81); Motorola with start_bit = 7
spanning the single full byte returns 0x81; Intel with start_bit = 7
returns 0x01. -/
theorem single_byte_extraction_values :
    Can_ExtractSignal msg81 0 8 false = 0x81
    ∧ Can_ExtractSignal msg81 7 8 true = 0x81
    ∧ Can_ExtractSignal msg81 7 8 false = 0x01 := by decide

/-- C9: for every rpm above 8000 (within the uint16 domain),
`Can_CreateEngineRpmMessage` inserts the raw sentinel 32000 — the
encoding of the 8000 maximum at factor 0.25 — so extracting the field
back yields 32000, not a wrapped value. -/
theorem engine_rpm_high_clamp (msg : Can_Message_t) (rpm : Nat)
    (h1 : 8000 < rpm) (h2 : rpm ≤ 65535) :
    Can_ExtractSignal (Can_CreateEngineRpmMessage msg rpm) 16 16 false = 32000 := by
  simp only [Can_CreateEngineRpmMessage]
  rw [if_pos h1]
  decide

/-- C9 witness: the high-side clamp at rpm 8001. -/
theorem engine_rpm_high_clamp_witness :
    8000 < 8001 ∧ 8001 ≤ 65535 ∧
    Can_ExtractSignal (Can_CreateEngineRpmMessage zeroMsg 8001) 16 16 false = 32000 :=
  ⟨by decide, by decide, engine_rpm_high_clamp zeroMsg 8001 (by decide) (by decide)⟩

/-- C10: insertion modifies only the payload: the id, dlc, extended_id
and rtr fields are unchanged for every message, geometry and value. -/
theorem insert_preserves_non_data (msg : Can_Message_t) (start_bit length value : Nat)
    (motorola : Bool) :
    (Can_InsertSignal msg start_bit length value motorola).id = msg.id ∧
    (Can_InsertSignal msg start_bit length value motorola).dlc = msg.dlc ∧
    (Can_InsertSignal msg start_bit length value motorola).extended_id = msg.extended_id ∧
    (Can_InsertSignal msg start_bit length value motorola).rtr = msg.rtr := by
  cases motorola with
  | false =>
    exact foldl_writeBit_fields (fun i => byteIdxOf (intelBitPos start_bit i))
      (fun i => intelBitPos start_bit i % 8) (fun i => (value >>> i) &&& 1 == 1)
      (List.range length) msg
  | true =>
    exact foldl_writeBit_fields (fun i => byteIdxOf (motBitPos start_bit i))
      (fun i => 7 - motBitPos start_bit i % 8) (fun i => (value >>> (length - 1 - i)) &&& 1 == 1)
      (List.range length) msg
